import Mathlib

/-!
# Verification of the ChronusQ one-electron integral / orthogonalization core

This file gives a shallow embedding, in exact real arithmetic, of the
AO-integral builder code of ChronusQ:

* `src/aointegrals/aointegrals_builders.cxx`
  (`AOIntegrals::OneEDriver`, `AOIntegrals::computeAOOneE`,
   `AOIntegrals::computeOrtho`),
* `include/cqlinalg/factorization.hpp` (the allocator-accepting `LU` overload).

The dense linear-algebra kernels (`Cholesky`, `CholeskyInv`, `HermetianEigen`,
`Gemm`) are LAPACK/BLAS wrappers whose implementations live outside the
embedded sources; they are modelled from the specification of their behaviour
(xPOTRF/xPOTRI/xSYEV/xGEMM semantics), as noted on each definition.

Matrices are `Matrix (Fin nn) (Fin nn) ℝ` in column-major agreement with the
flat buffers of the source (`A[i + j*N]` is entry `(i, j)`, row `i`, column
`j`).
-/

namespace ChronusQ

open Matrix

abbrev Mat (nn : ℕ) := Matrix (Fin nn) (Fin nn) ℝ

instance (nn : ℕ) : WellFoundedLT (Fin nn) := inferInstance

instance (priority := 1001) (nn : ℕ) : DecidableEq (Fin nn) :=
  fun a b => instDecidableEq_mathlib a b

/-! ## The Cholesky factor

`cholEntry S i j` is the `(i,j)` entry of the lower-triangular Cholesky factor
of `S`, by the standard column-by-column recurrence.  This is the
characterization of the output of LAPACK `xPOTRF` (UPLO = 'L') in exact
arithmetic; `cholMatrix_spec` below proves that for a positive-definite `S`
it is the unique lower-triangular matrix `L` with positive diagonal and
`L * Lᵀ = S`. -/
noncomputable def cholEntry {nn : ℕ} (S : Mat nn) (i j : Fin nn) : ℝ :=
  if _hji : (j : ℕ) < (i : ℕ) then
    (S i j - ∑ k : Fin nn,
        if _hk : (k : ℕ) < (j : ℕ) then cholEntry S i k * cholEntry S j k else 0)
      / cholEntry S j j
  else if _hij : (i : ℕ) = (j : ℕ) then
    Real.sqrt (S i i - ∑ k : Fin nn,
        if _hk : (k : ℕ) < (i : ℕ) then (cholEntry S i k) ^ 2 else 0)
  else 0
termination_by 2 * (j : ℕ) + (if (j : ℕ) < (i : ℕ) then 1 else 0)
decreasing_by
  all_goals repeat' split
  all_goals omega

/-- The Cholesky factor of `S` as a matrix. -/
noncomputable def cholMatrix {nn : ℕ} (S : Mat nn) : Mat nn :=
  Matrix.of (cholEntry S)

/-! ## Triangle bookkeeping helpers -/

/-- The lower triangle (diagonal included) of a buffer; the rest zero.
This is the matrix "stored in" the `'L'` triangle of a LAPACK buffer. -/
def lowerTriPart {nn : ℕ} (A : Mat nn) : Mat nn :=
  Matrix.of fun i j => if (j : ℕ) ≤ (i : ℕ) then A i j else 0

/-- The Hermitian (here: symmetric, real) matrix determined by the `'L'`
triangle of a buffer: LAPACK routines with `UPLO = 'L'` read only this
triangle. -/
def symLower {nn : ℕ} (A : Mat nn) : Mat nn :=
  Matrix.of fun i j => if (j : ℕ) ≤ (i : ℕ) then A i j else A j i

/-! ## Linear-algebra kernels (`cqlinalg`)

The kernel implementations are not part of the embedded source files (only
their declarations, in `cqlinalg/factorization.hpp`, are); they are modelled
from the spec, §4.1 "LinearAlgebraKernels". -/

/-- Modelled from the spec: `Cholesky('L', N, A, LDA)` (LAPACK xPOTRF) —
"factors a Hermitian positive-definite `n×n` matrix `A` in place into its
Cholesky factor stored in the triangle indicated by `uplo`".  With
`UPLO = 'L'` the factor overwrites the lower triangle; the strict upper
triangle of the buffer is not referenced and not modified. -/
noncomputable def CholeskyL {nn : ℕ} (A : Mat nn) : Mat nn :=
  Matrix.of fun i j =>
    if (j : ℕ) ≤ (i : ℕ) then cholEntry (symLower A) i j else A i j

/-- Modelled from the spec: the status returned by `Cholesky`:
zero on success, nonzero (`NotPositiveDefinite`) when the factored matrix is
not positive definite. -/
noncomputable def CholeskyInfo {nn : ℕ} (A : Mat nn) : ℤ :=
  letI := Classical.propDecidable ((symLower A).PosDef)
  if (symLower A).PosDef then 0 else 1

/-- Modelled from the spec: `CholeskyInv('L', N, A, LDA)` (LAPACK xPOTRI) —
"given the Cholesky factor produced above, computes the inverse of the
original matrix in place, same triangle convention": the lower triangle of
the buffer (holding a factor `L`) is overwritten with the lower triangle of
`(L * Lᵀ)⁻¹`; the strict upper triangle is untouched. -/
noncomputable def CholeskyInvL {nn : ℕ} (A : Mat nn) : Mat nn :=
  Matrix.of fun i j =>
    if (j : ℕ) ≤ (i : ℕ) then ((lowerTriPart A * (lowerTriPart A)ᵀ)⁻¹) i j
    else A i j

/-- Modelled from the spec: `Gemm(TRANSA, TRANSB, N, N, N, α, A, B, β, C)`
(BLAS xGEMM): `α·op(A)·op(B) + β·C` where `op` transposes when the
corresponding flag is `'T'`. -/
noncomputable def Gemm {nn : ℕ} (TRANSA TRANSB : Char) (alpha : ℝ)
    (A B : Mat nn) (beta : ℝ) (C : Mat nn) : Mat nn :=
  alpha • ((if TRANSA = 'T' then Aᵀ else A) * (if TRANSB = 'T' then Bᵀ else B))
    + beta • C

/-- A valid output of `HermetianEigen('V', 'U', N, A, N, sE, mem)`
(modelled from the spec: full eigendecomposition of a Hermitian matrix,
eigenvalues ascending, eigenvectors overwriting the buffer column-major):
`V` holds orthonormal eigenvectors as columns and `sE` the eigenvalues, so
that `S = V * diag(sE) * Vᵀ`. -/
def IsEigenDecomp {nn : ℕ} (S V : Mat nn) (sE : Fin nn → ℝ) : Prop :=
  V * Vᵀ = 1 ∧ Vᵀ * V = 1 ∧ S = V * Matrix.diagonal sE * Vᵀ ∧
    ∀ i j : Fin nn, i ≤ j → sE i ≤ sE j

/-! ## `AOIntegrals::computeOrtho` -/

/-- The orthogonalization-type member `AOIntegrals::orthoType_`. -/
inductive OrthoType
  | LOWDIN
  | CHOLESKY
deriving DecidableEq

/-- The `CHOLESKY` branch of `AOIntegrals::computeOrtho`
(`aointegrals_builders.cxx:377-400`), in exact arithmetic:
factor the overlap copy (`Cholesky('L', …)`, status discarded by the
source), copy the lower triangle onto the zero-initialized `ortho2`,
invert in place (`CholeskyInv('L', …)`, status discarded), form
`ortho1 = ortho2ᵀ · SCR1` with `Gemm('T','N',…)`, then zero the strict
upper triangle of `ortho1`. -/
noncomputable def computeOrthoCholesky {nn : ℕ} (S : Mat nn) : Mat nn × Mat nn :=
  let SCR1 := S
  let SCR1 := CholeskyL SCR1
  let ortho2 : Mat nn :=
    Matrix.of fun i j => if (j : ℕ) ≤ (i : ℕ) then SCR1 i j else 0
  let SCR1 := CholeskyInvL SCR1
  let ortho1 := Gemm 'T' 'N' 1 ortho2 SCR1 0 0
  let ortho1 : Mat nn :=
    Matrix.of fun i j => if (i : ℕ) < (j : ℕ) then 0 else ortho1 i j
  (ortho1, ortho2)

/-- The `LOWDIN` branch of `AOIntegrals::computeOrtho`
(`aointegrals_builders.cxx:276-307`), given the output `(V, sE)` of the
`HermetianEigen` call on the overlap copy: scale the eigenvector columns by
`sE j ^ (-1/2)`, multiply by `Vᵀ` to get `ortho1`, rescale by `sE j` in
place, multiply by `Vᵀ` to get `ortho2`. -/
noncomputable def computeOrthoLowdin {nn : ℕ} (V : Mat nn) (sE : Fin nn → ℝ) :
    Mat nn × Mat nn :=
  let SCR1 := V
  let SCR2 : Mat nn := Matrix.of fun i j => SCR1 i j / Real.sqrt (sE j)
  let ortho1 := Gemm 'N' 'T' 1 SCR2 SCR1 0 0
  let SCR2 : Mat nn := Matrix.of fun i j => SCR2 i j * sE j
  let ortho2 := Gemm 'N' 'T' 1 SCR2 SCR1 0 0
  (ortho1, ortho2)

/-- `AOIntegrals::computeOrtho` (`aointegrals_builders.cxx:258-404`).
The member `orthoType_` is unconditionally overwritten with `CHOLESKY`
(line 274: `orthoType_ = CHOLESKY;`) before the branch on it.  `V`/`sE`
stand for the eigendecomposition the `HermetianEigen` kernel would return
in the `LOWDIN` branch.  Returns the final `orthoType_` and the pair
`(ortho1, ortho2)`. -/
noncomputable def computeOrtho {nn : ℕ} (orthoType : OrthoType) (S V : Mat nn)
    (sE : Fin nn → ℝ) : OrthoType × (Mat nn × Mat nn) :=
  let orthoType := OrthoType.CHOLESKY
  match orthoType with
  | OrthoType.LOWDIN => (orthoType, computeOrthoLowdin V sE)
  | OrthoType.CHOLESKY => (orthoType, computeOrthoCholesky S)

/-! ## `AOIntegrals::OneEDriver`: shell-pair assembly

Buffers are flat, over `ℕ` indices; a shell `s` contributes the
basis-function index range `[shellOff sizes s, shellOff sizes s + sizes[s])`.
The integral engine is abstracted as a function from a shell pair to
`Option` of a raw block (`none` = the pair was screened, `buf_vec[0] ==
nullptr` in the source). -/

/-- First basis-function index of shell `s` (`bf1_s`/`bf2_s` in the source:
partial sums of the shell sizes). -/
def shellOff (sizes : List ℕ) (s : ℕ) : ℕ := (sizes.take s).sum

/-- Index `i` lies in the basis-function range of shell `s`. -/
def inShell (sizes : List ℕ) (s : ℕ) (i : ℕ) : Prop :=
  shellOff sizes s ≤ i ∧ i < shellOff sizes s + sizes.getD s 0

instance {sizes : List ℕ} {s i : ℕ} : Decidable (inShell sizes s i) := by
  unfold inShell; infer_instance

/-- The unique shell pairs `(s1, s2)`, `s2 ≤ s1`, in the source's loop order
(`for s1 < nShells, for s2 ≤ s1`). -/
def pairList (nShells : ℕ) : List (ℕ × ℕ) :=
  (List.range nShells).flatMap fun s1 =>
    (List.range (s1 + 1)).map fun s2 => (s1, s2)

/-- One iteration of the pair loop for one component matrix: if the engine
screened the pair, do nothing; otherwise copy the raw `n1×n2` block into the
matrix at the pair's row/column offsets
(`matMaps[iMat].block(bf1_s,bf2_s,n1,n2) = bufMat`). -/
def writePair (sizes : List ℕ) (engine : ℕ → ℕ → Option (ℕ → ℕ → ℝ))
    (M : ℕ → ℕ → ℝ) (p : ℕ × ℕ) : ℕ → ℕ → ℝ :=
  match engine p.1 p.2 with
  | none => M
  | some blk => fun i j =>
      if inShell sizes p.1 i ∧ inShell sizes p.2 j then
        blk (i - shellOff sizes p.1) (j - shellOff sizes p.2)
      else M i j

/-- The pair-loop phase of `OneEDriver` for one component matrix, starting
from the zero-initialized buffer (`std::fill_n(mats[i],NBSQ,0.)`). -/
def assemble (sizes : List ℕ) (engine : ℕ → ℕ → Option (ℕ → ℕ → ℝ)) :
    ℕ → ℕ → ℝ :=
  (pairList sizes.length).foldl (writePair sizes engine) fun _ _ => 0

/-- The symmetrization pass
(`matMaps[nMat] = matMaps[nMat].selfadjointView<Eigen::Lower>()`): the strict
upper triangle is replaced by the mirror of the lower triangle. -/
def symmetrizeLower (M : ℕ → ℕ → ℝ) : ℕ → ℕ → ℝ :=
  fun i j => if j ≤ i then M i j else M j i

/-- One component matrix as returned by `OneEDriver`: assembly of the
engine's lower-triangle blocks followed by symmetric completion. -/
def OneEDriverMat (sizes : List ℕ) (engine : ℕ → ℕ → Option (ℕ → ℕ → ℝ)) :
    ℕ → ℕ → ℝ :=
  symmetrizeLower (assemble sizes engine)

/-! ## `AOIntegrals::computeAOOneE`: component extraction and core
Hamiltonian -/

/-- The three operators `OneEDriver` is invoked with. -/
inductive LibintOp
  | emultipole3
  | kinetic
  | nuclear
deriving DecidableEq

/-- Modelled from the spec: the number of result buffers the engine produces
per operator (`engines[0].results().size()`), hence the number of matrices
`OneEDriver` returns: 20 for the combined overlap+multipole evaluation, 1
for kinetic, 1 for nuclear. -/
def numResults : LibintOp → ℕ
  | LibintOp.emultipole3 => 20
  | LibintOp.kinetic => 1
  | LibintOp.nuclear => 1

/-- Physical component labels of the combined overlap+multipole evaluation. -/
inductive MultipoleComponent
  | overlap
  | dipole (q : Fin 3)
  | quadrupole (q : Fin 6)
  | octupole (q : Fin 10)
deriving DecidableEq

/-- Modelled from the spec: the fixed component order of the 20 matrices the
engine produces for `emultipole3` (source doc comment,
`aointegrals_builders.cxx:55-63`): overlap, then the 3 dipole, 6 quadrupole
and 10 octupole components. -/
def emultipole3Order : List MultipoleComponent :=
  [MultipoleComponent.overlap]
    ++ (List.finRange 3).map MultipoleComponent.dipole
    ++ (List.finRange 6).map MultipoleComponent.quadrupole
    ++ (List.finRange 10).map MultipoleComponent.octupole

/-- The `OneEDriver` result for an operator: one matrix per engine result
component, in the engine's fixed component order. -/
def OneEDriverColl (op : LibintOp) (sizes : List ℕ)
    (engine : Fin (numResults op) → ℕ → ℕ → Option (ℕ → ℕ → ℝ)) :
    List (ℕ → ℕ → ℝ) :=
  (List.finRange (numResults op)).map fun c => OneEDriverMat sizes (engine c)

/-- The pointer extraction of `AOIntegrals::computeAOOneE`
(`aointegrals_builders.cxx:216-219`): `overlap = _multipole[0]`, then
`copy_n(begin+1, 3, lenElecDipole)`, `copy_n(begin+4, 6,
lenElecQuadrupole)`, `copy_n(begin+10, 10, lenElecOctupole)`. -/
def extractMultipole (mats : List (ℕ → ℕ → ℝ)) :
    (ℕ → ℕ → ℝ) × List (ℕ → ℕ → ℝ) × List (ℕ → ℕ → ℝ) × List (ℕ → ℕ → ℝ) :=
  (mats.getD 0 (fun _ _ => 0),
   (mats.drop 1).take 3,
   (mats.drop 4).take 6,
   (mats.drop 10).take 10)

/-- The core-Hamiltonian summation loop of `computeAOOneE`
(`aointegrals_builders.cxx:236-239`): the buffer is zero-initialized, then
each flat index `i` (visited in the order given by `order`, which for the
OpenMP chunked schedule is some enumeration of all indices) is overwritten
with `kinetic[i] + potential[i]`. -/
def computeCoreH (N : ℕ) (kinetic potential : Fin N → ℝ)
    (order : List (Fin N)) : Fin N → ℝ :=
  order.foldl
    (fun coreH i => Function.update coreH i (kinetic i + potential i))
    fun _ => 0

/-! ## `CQMemManager` and the allocator-accepting `LU` overload
(`cqlinalg/factorization.hpp:74-80`) -/

/-- The allocator service, modelled as a bump allocator that records the
live blocks (pointer, element count). -/
structure CQMemManager where
  next : ℕ
  allocated : List (ℕ × ℕ)

/-- `mem.template malloc<int>(len)`: returns a fresh pointer and the
allocator with the new block recorded live. -/
def CQMemManager.mallocBlk (mem : CQMemManager) (len : ℕ) : ℕ × CQMemManager :=
  (mem.next, ⟨mem.next + 1, (mem.next, len) :: mem.allocated⟩)

/-- `mem.free(p)`: the block at `p` is no longer live. -/
def CQMemManager.freeBlk (mem : CQMemManager) (p : ℕ) : CQMemManager :=
  ⟨mem.next, mem.allocated.filter fun q => q.1 != p⟩

/-- The allocator-accepting `LU` overload (`factorization.hpp:74-80`):
`IPIV = mem.malloc<int>(min(M,N)); INFO = LU(M,N,A,LDA,IPIV);
mem.free(IPIV); return INFO;`.  The plain `LU` kernel (LAPACK xGETRF) is
abstracted as a function `lu` from the matrix buffer to
`(INFO, factored buffer, pivot array)`. -/
def LUmem {α : Type} (M N : ℕ) (lu : α → ℤ × α × List ℤ) (A : α)
    (mem : CQMemManager) : ℤ × α × CQMemManager :=
  let al := mem.mallocBlk (min M N)
  let IPIV := al.1
  let mem := al.2
  let r := lu A
  let INFO := r.1
  let mem := mem.freeBlk IPIV
  (INFO, r.2.1, mem)

/-! ## The `AOIntegrals` aggregate state touched by `computeOrtho` -/

/-- The member buffers of `AOIntegrals` that `computeAOOneE` fills and that
`computeOrtho` can see. -/
structure AOIState (nn : ℕ) where
  overlap : Mat nn
  kinetic : Mat nn
  potential : Mat nn
  coreH : List (Mat nn)
  ortho1 : Mat nn
  ortho2 : Mat nn
  orthoType : OrthoType

/-- `AOIntegrals::computeOrtho` as a transformer of the aggregate state:
allocate and zero `ortho1`/`ortho2`, copy the overlap into fresh scratch
(`SCR1`), overwrite `orthoType_` with `CHOLESKY`, dispatch on it, and store
the resulting transforms.  All factorization work happens on `SCR1` and the
new `ortho1`/`ortho2` buffers.  `V`/`sE` stand for the `HermetianEigen`
output that the (dead) `LOWDIN` branch would use. -/
noncomputable def computeOrthoState {nn : ℕ} (st : AOIState nn) (V : Mat nn)
    (sE : Fin nn → ℝ) : AOIState nn :=
  let SCR1 := st.overlap
  let orthoType := OrthoType.CHOLESKY
  match orthoType with
  | OrthoType.LOWDIN =>
      let p := computeOrthoLowdin V sE
      { st with orthoType := OrthoType.LOWDIN, ortho1 := p.1, ortho2 := p.2 }
  | OrthoType.CHOLESKY =>
      let p := computeOrthoCholesky SCR1
      { st with orthoType := OrthoType.CHOLESKY, ortho1 := p.1, ortho2 := p.2 }

/-! ## The Cholesky factorization theorem

`cholMatrix S` is proved to be the unique lower-triangular factor of a
positive-definite `S` with positive diagonal: existence comes from the LDL
decomposition (with columns sign-normalized), uniqueness from the
`cholEntry` recurrence. -/

variable {nn : ℕ}

theorem real_conjTranspose_eq_transpose (A : Mat nn) : Aᴴ = Aᵀ := by
  ext i j
  simp [Matrix.conjTranspose_apply]

theorem diagEntries_pos {S : Mat nn} (hS : S.PosDef) (i : Fin nn) :
    0 < LDL.diagEntries hS i := by
  haveI hInv : Invertible (LDL.lowerInv hS) := LDL.invertibleLowerInv hS
  have hrow : LDL.lowerInv hS i ≠ 0 := by
    intro h
    have hdet : (LDL.lowerInv hS).det = 0 :=
      Matrix.det_eq_zero_of_row_eq_zero i (fun j => congrFun h j)
    have hu : IsUnit (LDL.lowerInv hS).det :=
      Matrix.isUnit_det_of_invertible (LDL.lowerInv hS)
    rw [hdet] at hu
    simp at hu
  have h1 : LDL.diagEntries hS i =
      (LDL.lowerInv hS * S * (LDL.lowerInv hS)ᴴ) i i := by
    rw [← LDL.diag_eq_lowerInv_conj hS]
    simp [LDL.diag]
  have h2 : (LDL.lowerInv hS * S * (LDL.lowerInv hS)ᴴ) i i =
      LDL.lowerInv hS i ⬝ᵥ S *ᵥ LDL.lowerInv hS i := by
    simp only [Matrix.mul_apply, Matrix.conjTranspose_apply, starRingEnd_apply,
      star_trivial, dotProduct, Matrix.mulVec, Finset.sum_mul, Finset.mul_sum]
    rw [Finset.sum_comm]
    refine Finset.sum_congr rfl fun k _ => Finset.sum_congr rfl fun m _ => by ring
  have h3 := hS.2 (LDL.lowerInv hS i) hrow
  simp only [star_trivial] at h3
  rw [h1, h2]
  exact h3

theorem lower_lowerTriangular {S : Mat nn} (hS : S.PosDef) :
    ∀ i j : Fin nn, i < j → LDL.lower hS i j = 0 := by
  haveI hInv : Invertible (LDL.lowerInv hS) := LDL.invertibleLowerInv hS
  have hbt : (LDL.lowerInv hS).BlockTriangular OrderDual.toDual := by
    intro i j hij
    exact LDL.lowerInv_triangular hS (by exact hij)
  have hinv := Matrix.blockTriangular_inv_of_blockTriangular hbt
  intro i j hij
  rw [LDL.lower]
  exact hinv (by exact hij)

theorem lower_diag_ne_zero {S : Mat nn} (hS : S.PosDef) (i : Fin nn) :
    LDL.lower hS i i ≠ 0 := by
  haveI hInv : Invertible (LDL.lowerInv hS) := LDL.invertibleLowerInv hS
  have hbt : (LDL.lower hS).BlockTriangular OrderDual.toDual := by
    intro a b hab
    exact lower_lowerTriangular hS a b (by exact hab)
  have hdet : (LDL.lower hS).det = ∏ k, LDL.lower hS k k :=
    Matrix.det_of_lowerTriangular (LDL.lower hS) hbt
  have hdetInv : (LDL.lowerInv hS).det ≠ 0 :=
    (Matrix.isUnit_det_of_invertible (LDL.lowerInv hS)).ne_zero
  have hprod : ∏ k, LDL.lower hS k k ≠ 0 := by
    rw [← hdet, LDL.lower, Matrix.det_nonsing_inv, Ring.inverse_eq_inv]
    exact inv_ne_zero hdetInv
  exact Finset.prod_ne_zero_iff.1 hprod i (Finset.mem_univ i)

theorem exists_cholesky {S : Mat nn} (hS : S.PosDef) :
    ∃ T : Mat nn, (∀ i j : Fin nn, i < j → T i j = 0) ∧ (∀ i, 0 < T i i) ∧
      T * Tᵀ = S := by
  set d : Fin nn → ℝ := fun i => LDL.diagEntries hS i with hd
  set e : Fin nn → ℝ := fun i => if LDL.lower hS i i < 0 then -1 else 1 with he
  set D : Mat nn := Matrix.diagonal fun i => Real.sqrt (d i) * e i with hD
  refine ⟨LDL.lower hS * D, ?_, ?_, ?_⟩
  · intro i j hij
    rw [hD, Matrix.mul_diagonal, lower_lowerTriangular hS i j hij, zero_mul]
  · intro i
    rw [hD, Matrix.mul_diagonal]
    have hsq : 0 < Real.sqrt (d i) := Real.sqrt_pos.2 (diagEntries_pos hS i)
    have hne := lower_diag_ne_zero hS i
    rcases lt_or_gt_of_ne hne with hneg | hpos
    · rw [he]
      simp only [hneg, if_pos]
      nlinarith
    · rw [he]
      simp only [not_lt_of_gt hpos, if_neg, if_false]
      nlinarith
  · have hDD : D * Dᵀ = LDL.diag hS := by
      rw [hD, Matrix.diagonal_transpose, Matrix.diagonal_mul_diagonal, LDL.diag]
      have hfun : (fun i => Real.sqrt (d i) * e i * (Real.sqrt (d i) * e i)) =
          LDL.diagEntries hS := by
        funext i
        have h1 : Real.sqrt (d i) * Real.sqrt (d i) = d i :=
          Real.mul_self_sqrt (le_of_lt (diagEntries_pos hS i))
        have h2 : e i * e i = 1 := by
          rw [he]
          by_cases h : LDL.lower hS i i < 0 <;> simp [h]
        calc Real.sqrt (d i) * e i * (Real.sqrt (d i) * e i)
            = Real.sqrt (d i) * Real.sqrt (d i) * (e i * e i) := by ring
          _ = d i := by rw [h1, h2, mul_one]
      rw [hfun]
    calc LDL.lower hS * D * (LDL.lower hS * D)ᵀ
        = LDL.lower hS * (D * Dᵀ) * (LDL.lower hS)ᵀ := by
          rw [Matrix.transpose_mul, ← Matrix.mul_assoc, Matrix.mul_assoc (LDL.lower hS)]
      _ = LDL.lower hS * LDL.diag hS * (LDL.lower hS)ᴴ := by
          rw [hDD, real_conjTranspose_eq_transpose]
      _ = S := LDL.lower_conj_diag hS



/-- Splitting of the factorization sum along column `j ≤ i`: only the terms
`k ≤ j` survive lower-triangularity. -/
theorem fac_sum_split (T : Mat nn)
    (hlt : ∀ i j : Fin nn, (i : ℕ) < (j : ℕ) → T i j = 0) (i j : Fin nn)
    (hji : (j : ℕ) ≤ (i : ℕ)) :
    ∑ k : Fin nn, T i k * T j k =
      (∑ k : Fin nn, if (k : ℕ) < (j : ℕ) then T i k * T j k else 0)
        + T i j * T j j := by
  have hsplit : ∀ k : Fin nn, T i k * T j k =
      (if (k : ℕ) < (j : ℕ) then T i k * T j k else 0)
        + (if k = j then T i j * T j j else 0) := by
    intro k
    rcases lt_trichotomy (k : ℕ) (j : ℕ) with h | h | h
    · have hk : k ≠ j := by
        intro hkj
        rw [hkj] at h
        omega
      simp [h, hk]
    · have hk : k = j := Fin.ext_iff.mpr h
      subst hk
      simp
    · have hk : k ≠ j := by
        intro hkj
        rw [hkj] at h
        omega
      have h0 : T j k = 0 := hlt j k h
      simp [h0, not_lt_of_gt h, hk]
  calc ∑ k : Fin nn, T i k * T j k
      = ∑ k : Fin nn, ((if (k : ℕ) < (j : ℕ) then T i k * T j k else 0)
          + (if k = j then T i j * T j j else 0)) :=
        Finset.sum_congr rfl fun k _ => hsplit k
    _ = (∑ k : Fin nn, if (k : ℕ) < (j : ℕ) then T i k * T j k else 0)
          + ∑ k : Fin nn, (if k = j then T i j * T j j else 0) :=
        Finset.sum_add_distrib
    _ = (∑ k : Fin nn, if (k : ℕ) < (j : ℕ) then T i k * T j k else 0)
          + T i j * T j j := by
        rw [Finset.sum_ite_eq' Finset.univ j fun _ => T i j * T j j]
        simp

/-- Uniqueness of the Cholesky factor: the recurrence `cholEntry` reproduces
any lower-triangular factor with positive diagonal. -/
theorem cholEntry_eq_of_fac (S T : Mat nn)
    (hlt : ∀ i j : Fin nn, (i : ℕ) < (j : ℕ) → T i j = 0)
    (hpos : ∀ i, 0 < T i i) (hfac : T * Tᵀ = S) :
    ∀ i j : Fin nn, cholEntry S i j = T i j := by
  have hS : ∀ i j : Fin nn, S i j = ∑ k : Fin nn, T i k * T j k := by
    intro i j
    rw [← hfac, Matrix.mul_apply]
    simp [Matrix.transpose_apply]
  suffices h : ∀ m : ℕ, ∀ i j : Fin nn,
      2 * (j : ℕ) + (if (j : ℕ) < (i : ℕ) then 1 else 0) ≤ m →
      cholEntry S i j = T i j by
    intro i j
    exact h (2 * (j : ℕ) + 1) i j (by split <;> omega)
  intro m
  induction m using Nat.strong_induction_on with
  | _ m IH =>
    intro i j hm
    rcases lt_trichotomy (j : ℕ) (i : ℕ) with hji | hij | hij
    · -- strictly lower part
      have hmj : 2 * (j : ℕ) + 1 ≤ m := by
        rw [if_pos hji] at hm
        omega
      have hdiag : cholEntry S j j = T j j :=
        IH (2 * (j : ℕ)) (by omega) j j (by simp)
      have hcols : ∀ k : Fin nn, (k : ℕ) < (j : ℕ) →
          cholEntry S i k = T i k ∧ cholEntry S j k = T j k := by
        intro k hk
        constructor
        · exact IH (2 * (k : ℕ) + 1) (by omega) i k (by split <;> omega)
        · exact IH (2 * (k : ℕ) + 1) (by omega) j k (by split <;> omega)
      rw [cholEntry]
      rw [dif_pos hji]
      have hsum : (∑ k : Fin nn,
          if _hk : (k : ℕ) < (j : ℕ) then cholEntry S i k * cholEntry S j k else 0)
          = ∑ k : Fin nn, if (k : ℕ) < (j : ℕ) then T i k * T j k else 0 := by
        refine Finset.sum_congr rfl fun k _ => ?_
        by_cases hk : (k : ℕ) < (j : ℕ)
        · rw [dif_pos hk, if_pos hk, (hcols k hk).1, (hcols k hk).2]
        · rw [dif_neg hk, if_neg hk]
      rw [hsum, hdiag, hS i j, fac_sum_split T hlt i j (le_of_lt hji)]
      have hTjj : T j j ≠ 0 := ne_of_gt (hpos j)
      field_simp
    · -- diagonal
      have hij' : i = j := Fin.ext_iff.mpr hij.symm
      subst hij'
      rw [cholEntry, dif_neg (lt_irrefl _), dif_pos rfl]
      have hcols : ∀ k : Fin nn, (k : ℕ) < (i : ℕ) → cholEntry S i k = T i k := by
        intro k hk
        have hmi : 2 * (i : ℕ) ≤ m := by
          rw [if_neg (lt_irrefl _)] at hm
          omega
        exact IH (2 * (k : ℕ) + 1) (by omega) i k (by split <;> omega)
      have hsum : (∑ k : Fin nn,
          if _hk : (k : ℕ) < (i : ℕ) then (cholEntry S i k) ^ 2 else 0)
          = ∑ k : Fin nn, if (k : ℕ) < (i : ℕ) then T i k * T i k else 0 := by
        refine Finset.sum_congr rfl fun k _ => ?_
        by_cases hk : (k : ℕ) < (i : ℕ)
        · rw [dif_pos hk, if_pos hk, hcols k hk]
          ring
        · rw [dif_neg hk, if_neg hk]
      rw [hsum, hS i i, fac_sum_split T hlt i i (le_refl _)]
      have : (∑ k : Fin nn, if (k : ℕ) < (i : ℕ) then T i k * T i k else 0)
          + T i i * T i i
          - (∑ k : Fin nn, if (k : ℕ) < (i : ℕ) then T i k * T i k else 0)
          = T i i * T i i := by ring
      rw [this]
      exact Real.sqrt_mul_self (le_of_lt (hpos i))
    · -- strictly upper part
      rw [cholEntry, dif_neg (by omega), dif_neg (by omega)]
      exact (hlt i j hij).symm



/-- For a positive-definite `S`, `cholMatrix S` is the Cholesky factor:
lower triangular with positive diagonal and `L * Lᵀ = S`. -/
theorem cholMatrix_spec {S : Mat nn} (hS : S.PosDef) :
    (∀ i j : Fin nn, (i : ℕ) < (j : ℕ) → cholMatrix S i j = 0) ∧
      (∀ i, 0 < cholMatrix S i i) ∧ cholMatrix S * (cholMatrix S)ᵀ = S := by
  obtain ⟨T, hlt, hpos, hfac⟩ := exists_cholesky hS
  have he : ∀ i j : Fin nn, cholEntry S i j = T i j :=
    cholEntry_eq_of_fac S T (fun i j h => hlt i j (by exact h)) hpos hfac
  have hmat : cholMatrix S = T := by
    ext i j
    exact he i j
  rw [hmat]
  exact ⟨fun i j h => hlt i j (by exact h), hpos, hfac⟩


/-! ## Characterization of the Cholesky branch of `computeOrtho` -/

theorem symLower_eq_self {S : Mat nn} (hsym : Sᵀ = S) : symLower S = S := by
  ext i j
  by_cases h : (j : ℕ) ≤ (i : ℕ)
  · simp only [symLower, Matrix.of_apply, if_pos h]
  · simp only [symLower, Matrix.of_apply, if_neg h]
    exact congrFun (congrFun hsym i) j

theorem posDef_transpose_eq {S : Mat nn} (hS : S.PosDef) : Sᵀ = S := by
  rw [← real_conjTranspose_eq_transpose]
  exact hS.1

theorem cholEntry_upper (S : Mat nn) (i j : Fin nn) (h : (i : ℕ) < (j : ℕ)) :
    cholEntry S i j = 0 := by
  rw [cholEntry, dif_neg (by omega), dif_neg (by omega)]

theorem computeOrthoCholesky_eq (S : Mat nn) :
    computeOrthoCholesky S =
      (Matrix.of fun i j : Fin nn => if (i : ℕ) < (j : ℕ) then 0 else
         ((lowerTriPart (CholeskyL S))ᵀ * CholeskyInvL (CholeskyL S)) i j,
       lowerTriPart (CholeskyL S)) := by
  simp only [computeOrthoCholesky, Gemm, if_pos rfl, if_neg (by decide : ¬('N' = 'T')),
    one_smul, zero_smul, add_zero]
  rfl

theorem lowerTriPart_CholeskyL {S : Mat nn} (hsym : Sᵀ = S) :
    lowerTriPart (CholeskyL S) = cholMatrix S := by
  ext i j
  by_cases h : (j : ℕ) ≤ (i : ℕ)
  · simp only [lowerTriPart, CholeskyL, Matrix.of_apply, if_pos h,
      symLower_eq_self hsym]
    rfl
  · simp only [lowerTriPart, Matrix.of_apply, if_neg h]
    exact (cholEntry_upper S i j (by omega)).symm

theorem computeOrthoCholesky_snd {S : Mat nn} (hsym : Sᵀ = S) :
    (computeOrthoCholesky S).2 = cholMatrix S := by
  rw [computeOrthoCholesky_eq, lowerTriPart_CholeskyL hsym]

theorem CholeskyInvL_lower {S : Mat nn} (hS : S.PosDef) (i j : Fin nn)
    (h : (j : ℕ) ≤ (i : ℕ)) :
    CholeskyInvL (CholeskyL S) i j = S⁻¹ i j := by
  have hsym := posDef_transpose_eq hS
  simp only [CholeskyInvL, Matrix.of_apply, if_pos h,
    lowerTriPart_CholeskyL hsym, (cholMatrix_spec hS).2.2]

theorem computeOrthoCholesky_fst_eq_zeroUpper {S : Mat nn} (hS : S.PosDef) :
    (computeOrthoCholesky S).1 = Matrix.of fun i j : Fin nn =>
      if (i : ℕ) < (j : ℕ) then 0 else ((cholMatrix S)ᵀ * S⁻¹) i j := by
  have hsym := posDef_transpose_eq hS
  rw [computeOrthoCholesky_eq]
  ext i j
  simp only [Matrix.of_apply]
  by_cases hij : (i : ℕ) < (j : ℕ)
  · rw [if_pos hij, if_pos hij]
  · rw [if_neg hij, if_neg hij, lowerTriPart_CholeskyL hsym,
      Matrix.mul_apply, Matrix.mul_apply]
    refine Finset.sum_congr rfl fun k _ => ?_
    by_cases hk : (j : ℕ) ≤ (k : ℕ)
    · rw [CholeskyInvL_lower hS k j hk]
    · have hki : (k : ℕ) < (i : ℕ) := by omega
      rw [Matrix.transpose_apply, (cholMatrix_spec hS).1 k i hki, zero_mul, zero_mul]

theorem Gemm_NT (A B : Mat nn) : Gemm 'N' 'T' 1 A B 0 0 = A * Bᵀ := by
  simp only [Gemm, if_neg (by decide : ¬('N' = 'T')), if_pos rfl, if_true,
    eq_self_iff_true, ite_true, one_smul, zero_smul, add_zero]

theorem computeOrthoLowdin_eq (V : Mat nn) (sE : Fin nn → ℝ)
    (hpos : ∀ i, 0 < sE i) :
    computeOrthoLowdin V sE =
      (V * Matrix.diagonal (fun i => (Real.sqrt (sE i))⁻¹) * Vᵀ,
       V * Matrix.diagonal (fun i => Real.sqrt (sE i)) * Vᵀ) := by
  simp only [computeOrthoLowdin, Gemm_NT]
  rw [Prod.mk.injEq]
  constructor
  · congr 1
    ext i j
    rw [Matrix.of_apply, Matrix.mul_diagonal, div_eq_mul_inv]
  · congr 1
    ext i j
    rw [Matrix.of_apply, Matrix.of_apply, Matrix.mul_diagonal]
    rw [div_mul_eq_mul_div, mul_div_assoc, Real.div_sqrt]

/-- The overlap matrix `[[1, 0.5], [0.5, 1]]` of the spec's two-shell
scenario. -/
noncomputable def overlap2x2 : Mat 2 := !![1, 1/2; 1/2, 1]

theorem overlap2x2_posDef : overlap2x2.PosDef := by
  constructor
  · ext i j
    fin_cases i <;> fin_cases j <;>
      simp [overlap2x2, Matrix.conjTranspose_apply]
  · intro x hx
    have hx' : x 0 ≠ 0 ∨ x 1 ≠ 0 := by
      by_contra hcon
      push_neg at hcon
      refine hx (funext fun i => ?_)
      fin_cases i
      · exact hcon.1
      · exact hcon.2
    have hq : star x ⬝ᵥ overlap2x2 *ᵥ x = x 0 ^ 2 + x 0 * x 1 + x 1 ^ 2 := by
      simp [overlap2x2, dotProduct, Matrix.mulVec, Fin.sum_univ_two]
      ring
    rw [hq]
    rcases hx' with h | h
    · nlinarith [pow_two_pos_of_ne_zero h, sq_nonneg (x 0 + x 1), sq_nonneg (x 1)]
    · nlinarith [pow_two_pos_of_ne_zero h, sq_nonneg (x 0 + x 1), sq_nonneg (x 0)]

theorem cholEntry2x2_00 : cholEntry overlap2x2 0 0 = 1 := by
  rw [cholEntry]
  norm_num [Fin.sum_univ_two, overlap2x2]

theorem cholEntry2x2_10 : cholEntry overlap2x2 1 0 = 1 / 2 := by
  rw [cholEntry, cholEntry2x2_00]
  norm_num [Fin.sum_univ_two, overlap2x2]

theorem cholEntry2x2_11 : cholEntry overlap2x2 1 1 = Real.sqrt 0.75 := by
  rw [cholEntry]
  rw [dif_neg (by norm_num), dif_pos rfl, Fin.sum_univ_two,
    dif_pos (by norm_num), dif_neg (by norm_num), cholEntry2x2_10]
  have hval : overlap2x2 1 1 - ((1 / 2 : ℝ) ^ 2 + 0) = 0.75 := by
    norm_num [overlap2x2]
  rw [hval]


/-- A concrete orthonormal eigendecomposition of `overlap2x2`:
eigenvalues `(1/2, 3/2)` ascending, eigenvector columns `(1,-1)/√2` and
`(1,1)/√2`. -/
noncomputable def V2x2 : Mat 2 :=
  !![(Real.sqrt 2)⁻¹, (Real.sqrt 2)⁻¹; -(Real.sqrt 2)⁻¹, (Real.sqrt 2)⁻¹]

/-- The eigenvalues of `overlap2x2`, in ascending order. -/
noncomputable def s2x2 : Fin 2 → ℝ := ![1/2, 3/2]

theorem sqrt2_inv_sq : (Real.sqrt 2)⁻¹ * (Real.sqrt 2)⁻¹ = 1 / 2 := by
  rw [← mul_inv, Real.mul_self_sqrt (by norm_num : (0:ℝ) ≤ 2)]
  norm_num

theorem V2x2_eigen : IsEigenDecomp overlap2x2 V2x2 s2x2 := by
  have ha := sqrt2_inv_sq
  refine ⟨?_, ?_, ?_, ?_⟩
  · ext i j
    fin_cases i <;> fin_cases j <;>
      simp [V2x2, Matrix.mul_apply, Fin.sum_univ_two, Matrix.one_apply,
        Matrix.transpose_apply, Matrix.vecHead, Matrix.vecTail] <;>
      nlinarith [ha]
  · ext i j
    fin_cases i <;> fin_cases j <;>
      simp [V2x2, Matrix.mul_apply, Fin.sum_univ_two, Matrix.one_apply,
        Matrix.transpose_apply, Matrix.vecHead, Matrix.vecTail] <;>
      nlinarith [ha]
  · ext i j
    fin_cases i <;> fin_cases j <;>
      simp [V2x2, s2x2, overlap2x2, Matrix.mul_apply, Fin.sum_univ_two,
        Matrix.mul_diagonal, Matrix.transpose_apply, Matrix.vecHead,
        Matrix.vecTail, Matrix.vecMul, Matrix.diagonal, dotProduct] <;>
      nlinarith [ha]
  · intro i j hij
    fin_cases i <;> fin_cases j
    · norm_num [s2x2]
    · norm_num [s2x2]
    · exact absurd hij (by decide)
    · norm_num [s2x2]


theorem lowdin_formula_entry01 :
    (V2x2 * Matrix.diagonal (fun i => Real.sqrt (s2x2 i)) * V2x2ᵀ) 0 1 =
      ((Real.sqrt 2)⁻¹ * (Real.sqrt 2)⁻¹) * (Real.sqrt (3/2) - Real.sqrt (1/2)) := by
  simp [V2x2, s2x2, Matrix.mul_apply, Fin.sum_univ_two, Matrix.mul_diagonal,
    Matrix.transpose_apply, Matrix.vecHead, Matrix.vecTail, Matrix.vecMul,
    Matrix.diagonal, dotProduct]
  ring_nf

theorem sqrt_half_lt_sqrt_three_half : Real.sqrt (1/2) < Real.sqrt (3/2) :=
  Real.sqrt_lt_sqrt (by norm_num) (by norm_num)


/-! ## Claims C1, C2, C3 -/

/-- C1: under the CHOLESKY algorithm, `computeOrtho` produces `ortho2` equal
to the lower-triangular Cholesky factor `L` of the symmetric
positive-definite overlap `S` (lower triangular with positive diagonal and
`L·Lᵀ = S`, every strict-upper-triangle entry exactly zero), and `ortho1`
equal to `Lᵀ·S⁻¹` with its strict upper triangle explicitly zeroed; in
particular on the 2×2 overlap `[[1, 0.5],[0.5, 1]]`: `ortho2[0,0] = 1`,
`ortho2[1,0] = 0.5`, `ortho2[1,1] = √0.75`, `ortho1[0,1] = 0`. -/
theorem C1_cholesky_transforms {nn : ℕ} (S : Mat nn) (hS : S.PosDef) :
    ((computeOrthoCholesky S).2 * ((computeOrthoCholesky S).2)ᵀ = S ∧
      (∀ i j : Fin nn, (i : ℕ) < (j : ℕ) → (computeOrthoCholesky S).2 i j = 0) ∧
      (∀ i : Fin nn, 0 < (computeOrthoCholesky S).2 i i) ∧
      (computeOrthoCholesky S).1 = Matrix.of fun i j : Fin nn =>
        if (i : ℕ) < (j : ℕ) then 0 else ((cholMatrix S)ᵀ * S⁻¹) i j) ∧
    ((computeOrthoCholesky overlap2x2).2 0 0 = 1 ∧
      (computeOrthoCholesky overlap2x2).2 1 0 = 1 / 2 ∧
      (computeOrthoCholesky overlap2x2).2 1 1 = Real.sqrt 0.75 ∧
      (computeOrthoCholesky overlap2x2).1 0 1 = 0) := by
  have hsnd := computeOrthoCholesky_snd (posDef_transpose_eq hS)
  have hsnd2 := computeOrthoCholesky_snd (posDef_transpose_eq overlap2x2_posDef)
  refine ⟨⟨?_, ?_, ?_, computeOrthoCholesky_fst_eq_zeroUpper hS⟩,
    ?_, ?_, ?_, ?_⟩
  · rw [hsnd]
    exact (cholMatrix_spec hS).2.2
  · rw [hsnd]
    exact (cholMatrix_spec hS).1
  · rw [hsnd]
    exact (cholMatrix_spec hS).2.1
  · rw [hsnd2]
    exact cholEntry2x2_00
  · rw [hsnd2]
    exact cholEntry2x2_10
  · rw [hsnd2]
    exact cholEntry2x2_11
  · rw [computeOrthoCholesky_fst_eq_zeroUpper overlap2x2_posDef]
    norm_num

/-- Witness for C1 at the concrete 2×2 overlap. -/
theorem C1_witness :
    overlap2x2.PosDef ∧
    (((computeOrthoCholesky overlap2x2).2 *
        ((computeOrthoCholesky overlap2x2).2)ᵀ = overlap2x2 ∧
      (∀ i j : Fin 2, (i : ℕ) < (j : ℕ) →
        (computeOrthoCholesky overlap2x2).2 i j = 0) ∧
      (∀ i : Fin 2, 0 < (computeOrthoCholesky overlap2x2).2 i i) ∧
      (computeOrthoCholesky overlap2x2).1 = Matrix.of fun i j : Fin 2 =>
        if (i : ℕ) < (j : ℕ) then 0 else
          ((cholMatrix overlap2x2)ᵀ * overlap2x2⁻¹) i j) ∧
    ((computeOrthoCholesky overlap2x2).2 0 0 = 1 ∧
      (computeOrthoCholesky overlap2x2).2 1 0 = 1 / 2 ∧
      (computeOrthoCholesky overlap2x2).2 1 1 = Real.sqrt 0.75 ∧
      (computeOrthoCholesky overlap2x2).1 0 1 = 0)) :=
  ⟨overlap2x2_posDef, C1_cholesky_transforms overlap2x2 overlap2x2_posDef⟩

/-- C3 (amended): `computeOrtho` overwrites the configured orthogonalization
type with `CHOLESKY` before dispatching, so for every configured type it
returns the Cholesky-based transform pair; the (unreachable) `LOWDIN` branch
would compute the Löwdin symmetric transforms
`(V·diag(s^{-1/2})·Vᵀ, V·diag(s^{1/2})·Vᵀ)`. -/
theorem C3_dispatch {nn : ℕ} (orthoType : OrthoType) (S V : Mat nn)
    (sE : Fin nn → ℝ) :
    computeOrtho orthoType S V sE =
      (OrthoType.CHOLESKY, computeOrthoCholesky S) ∧
    ((∀ i, 0 < sE i) → computeOrthoLowdin V sE =
      (V * Matrix.diagonal (fun i => (Real.sqrt (sE i))⁻¹) * Vᵀ,
       V * Matrix.diagonal (fun i => Real.sqrt (sE i)) * Vᵀ)) :=
  ⟨rfl, fun hpos => computeOrthoLowdin_eq V sE hpos⟩

/-- Witness for C3 at the concrete 2×2 data. -/
theorem C3_witness :
    (∀ i, 0 < s2x2 i) ∧
    computeOrtho OrthoType.LOWDIN overlap2x2 V2x2 s2x2 =
      (OrthoType.CHOLESKY, computeOrthoCholesky overlap2x2) ∧
    computeOrthoLowdin V2x2 s2x2 =
      (V2x2 * Matrix.diagonal (fun i => (Real.sqrt (s2x2 i))⁻¹) * V2x2ᵀ,
       V2x2 * Matrix.diagonal (fun i => Real.sqrt (s2x2 i)) * V2x2ᵀ) := by
  have hpos : ∀ i, 0 < s2x2 i := by
    intro i
    fin_cases i <;> norm_num [s2x2]
  exact ⟨hpos,
    (C3_dispatch OrthoType.LOWDIN overlap2x2 V2x2 s2x2).1,
    (C3_dispatch OrthoType.LOWDIN overlap2x2 V2x2 s2x2).2 hpos⟩

/-- Counterexample for C3 as stated: with the configuration set to `LOWDIN`
and a valid eigendecomposition of the 2×2 overlap available, `computeOrtho`
does NOT produce the Löwdin transforms: its `ortho2` has `(0,1)` entry `0`,
while the Löwdin `V·diag(s^{1/2})·Vᵀ` has a nonzero `(0,1)` entry. -/
theorem C3_counterexample :
    IsEigenDecomp overlap2x2 V2x2 s2x2 ∧
    ¬((computeOrtho OrthoType.LOWDIN overlap2x2 V2x2 s2x2).2.2 =
        V2x2 * Matrix.diagonal (fun i => Real.sqrt (s2x2 i)) * V2x2ᵀ) := by
  refine ⟨V2x2_eigen, ?_⟩
  intro hcon
  have h01 := congrFun (congrFun hcon 0) 1
  have hL : (computeOrtho OrthoType.LOWDIN overlap2x2 V2x2 s2x2).2.2 0 1 = 0 := by
    show (computeOrthoCholesky overlap2x2).2 0 1 = 0
    rw [computeOrthoCholesky_snd (posDef_transpose_eq overlap2x2_posDef)]
    exact (cholMatrix_spec overlap2x2_posDef).1 0 1 (by norm_num)
  rw [hL, lowdin_formula_entry01, sqrt2_inv_sq] at h01
  have hlt := sqrt_half_lt_sqrt_three_half
  nlinarith [h01, hlt]


/-! ## Claim C4: the core Hamiltonian summation -/

theorem computeCoreH_foldl {N : ℕ} (k v : Fin N → ℝ) (i : Fin N) :
    ∀ (l : List (Fin N)) (acc : Fin N → ℝ),
      (i ∈ l ∨ acc i = k i + v i) →
      (l.foldl (fun coreH j => Function.update coreH j (k j + v j)) acc) i =
        k i + v i := by
  intro l
  induction l with
  | nil =>
    intro acc h
    rcases h with h | h
    · cases h
    · exact h
  | cons a l IH =>
    intro acc h
    simp only [List.foldl_cons]
    apply IH
    by_cases hia : i ∈ l
    · exact Or.inl hia
    · right
      rcases h with h | h
      · rcases List.mem_cons.1 h with rfl | h'
        · rw [Function.update_same]
        · exact absurd h' hia
      · by_cases hai : a = i
        · subst hai
          rw [Function.update_same]
        · rw [Function.update_noteq (Ne.symm hai)]
          exact h

/-- C4: after `computeAOOneE`, `coreH[i] = kinetic[i] + potential[i]` for
every flat index `i < NB²`, identically for the sequential order and for any
chunked order that visits every index (the OpenMP static schedule). -/
theorem C4_coreHamiltonian {N : ℕ} (kinetic potential : Fin N → ℝ)
    (order : List (Fin N)) (hcover : ∀ i : Fin N, i ∈ order) :
    (∀ i : Fin N, computeCoreH N kinetic potential order i =
      kinetic i + potential i) ∧
    (∀ i : Fin N, computeCoreH N kinetic potential (List.finRange N) i =
      kinetic i + potential i) :=
  ⟨fun i => computeCoreH_foldl kinetic potential i order (fun _ => 0)
     (Or.inl (hcover i)),
   fun i => computeCoreH_foldl kinetic potential i (List.finRange N)
     (fun _ => 0) (Or.inl (List.mem_finRange i))⟩

/-- Witness for C4 at a concrete two-element buffer and chunk order. -/
theorem C4_witness :
    (∀ i : Fin 2, i ∈ [(1 : Fin 2), 0]) ∧
    ((∀ i : Fin 2, computeCoreH 2 (fun _ => (1 : ℝ)) (fun _ => 2) [1, 0] i =
        1 + 2) ∧
     (∀ i : Fin 2, computeCoreH 2 (fun _ => (1 : ℝ)) (fun _ => 2)
        (List.finRange 2) i = 1 + 2)) :=
  ⟨by decide,
   C4_coreHamiltonian (fun _ => (1 : ℝ)) (fun _ => 2) [1, 0] (by decide)⟩

/-! ## Claim C6: symmetric completion -/

/-- C6: every matrix returned by `OneEDriver` is exactly symmetric after the
symmetric-completion pass, with the upper triangle obtained by reflecting
the assembled lower triangle. -/
theorem C6_symmetry (sizes : List ℕ) (engine : ℕ → ℕ → Option (ℕ → ℕ → ℝ)) :
    (∀ i j : ℕ, OneEDriverMat sizes engine i j = OneEDriverMat sizes engine j i) ∧
    (∀ i j : ℕ, j ≤ i →
      OneEDriverMat sizes engine i j = assemble sizes engine i j) := by
  constructor
  · intro i j
    unfold OneEDriverMat symmetrizeLower
    by_cases h1 : j ≤ i
    · rw [if_pos h1]
      by_cases h2 : i ≤ j
      · have hij : i = j := le_antisymm h2 h1
        subst hij
        rw [if_pos le_rfl]
      · rw [if_neg h2]
    · rw [if_neg h1, if_pos (le_of_not_le h1)]
  · intro i j h
    unfold OneEDriverMat symmetrizeLower
    rw [if_pos h]

/-- Witness for C6 at a concrete one-shell basis with everything screened. -/
theorem C6_witness :
    (OneEDriverMat [1] (fun _ _ => none) 0 1 =
      OneEDriverMat [1] (fun _ _ => none) 1 0) ∧
    ((0 : ℕ) ≤ 0 ∧
      OneEDriverMat [1] (fun _ _ => none) 0 0 =
        assemble [1] (fun _ _ => none) 0 0) :=
  ⟨(C6_symmetry [1] (fun _ _ => none)).1 0 1,
   le_refl 0, (C6_symmetry [1] (fun _ _ => none)).2 0 0 (le_refl 0)⟩

/-! ## Claim C9: the allocator-accepting `LU` overload -/

/-- C9: the allocator-accepting `LU` overload returns exactly the status and
buffer state of the plain `LU`, and the internally acquired pivot block is
released on every return path (the live-allocation list is restored), in
particular when the factorization reports failure. -/
theorem C9_LU_overload {α : Type} (M N : ℕ) (lu : α → ℤ × α × List ℤ)
    (A : α) (mem : CQMemManager)
    (hwf : ∀ q ∈ mem.allocated, q.1 < mem.next) :
    (LUmem M N lu A mem).1 = (lu A).1 ∧
    (LUmem M N lu A mem).2.1 = (lu A).2.1 ∧
    (LUmem M N lu A mem).2.2.allocated = mem.allocated := by
  refine ⟨rfl, rfl, ?_⟩
  show (((mem.next, min M N) :: mem.allocated).filter
    fun q => q.1 != mem.next) = mem.allocated
  rw [List.filter_cons_of_neg (by simp)]
  exact List.filter_eq_self.mpr fun q hq => by
    simpa [bne_iff_ne] using Nat.ne_of_lt (hwf q hq)

/-- Witness for C9: a concrete allocator state and a plain `LU` oracle that
reports failure (`INFO = 1`); the overload still matches it and restores the
allocation list. -/
theorem C9_witness :
    (∀ q ∈ (CQMemManager.mk 5 [(3, 7)]).allocated,
      q.1 < (CQMemManager.mk 5 [(3, 7)]).next) ∧
    ((LUmem 3 2 (fun a : ℕ => (1, a, [])) 0 (CQMemManager.mk 5 [(3, 7)])).1 =
        ((fun a : ℕ => ((1 : ℤ), a, ([] : List ℤ))) 0).1 ∧
      (LUmem 3 2 (fun a : ℕ => (1, a, [])) 0 (CQMemManager.mk 5 [(3, 7)])).2.1 =
        ((fun a : ℕ => ((1 : ℤ), a, ([] : List ℤ))) 0).2.1 ∧
      (LUmem 3 2 (fun a : ℕ => (1, a, [])) 0
          (CQMemManager.mk 5 [(3, 7)])).2.2.allocated =
        (CQMemManager.mk 5 [(3, 7)]).allocated) :=
  ⟨by simp, C9_LU_overload 3 2 (fun a : ℕ => (1, a, [])) 0
    (CQMemManager.mk 5 [(3, 7)]) (by simp)⟩

/-! ## Claim C10: `computeOrtho` leaves the integral buffers untouched -/

/-- C10: `computeOrtho` works on a scratch copy of the overlap and the
freshly allocated `ortho1`/`ortho2` buffers: the `overlap`, `kinetic`,
`potential` and `coreH` members are bit-identical before and after, and
only `ortho1`, `ortho2` and `orthoType_` are written. -/
theorem C10_frame {nn : ℕ} (st : AOIState nn) (V : Mat nn) (sE : Fin nn → ℝ) :
    (computeOrthoState st V sE).overlap = st.overlap ∧
    (computeOrthoState st V sE).kinetic = st.kinetic ∧
    (computeOrthoState st V sE).potential = st.potential ∧
    (computeOrthoState st V sE).coreH = st.coreH ∧
    (computeOrthoState st V sE).ortho1 = (computeOrthoCholesky st.overlap).1 ∧
    (computeOrthoState st V sE).ortho2 = (computeOrthoCholesky st.overlap).2 :=
  ⟨rfl, rfl, rfl, rfl, rfl, rfl⟩

/-! ## Claim C8: factorization statuses are discarded -/

/-- C8 (code bug): `computeOrtho` discards the status codes of `Cholesky`
and `CholeskyInv`.  On the 1×1 overlap `[[-1]]`, which is not positive
definite, `Cholesky` reports a nonzero status, yet the computation continues
and produces a (garbage) transform pair — here `(0, 0)` — instead of
aborting. -/
theorem C8_status_ignored :
    CholeskyInfo (!![(-1 : ℝ)] : Mat 1) ≠ 0 ∧
    computeOrthoCholesky (!![(-1 : ℝ)] : Mat 1) = (0, 0) := by
  have hsym : symLower (!![(-1 : ℝ)] : Mat 1) = !![(-1 : ℝ)] := by
    ext i j
    fin_cases i <;> fin_cases j <;> simp [symLower]
  have hnot : ¬(symLower (!![(-1 : ℝ)] : Mat 1)).PosDef := by
    rw [hsym]
    intro h
    have h1 : (![1] : Fin 1 → ℝ) ≠ 0 := by
      intro heq
      have h0 := congrFun heq 0
      norm_num at h0
    have h2 := h.2 ![1] h1
    simp [dotProduct, Matrix.mulVec, Fin.sum_univ_one] at h2
    linarith [h2]
  constructor
  · rw [CholeskyInfo, if_neg hnot]
    norm_num
  · have hch : cholEntry (symLower (!![(-1 : ℝ)] : Mat 1)) 0 0 = 0 := by
      rw [hsym, cholEntry]
      norm_num [Fin.sum_univ_one]
      rw [Real.sqrt_eq_zero']
      norm_num
    have hlow : lowerTriPart (CholeskyL (!![(-1 : ℝ)] : Mat 1)) = 0 := by
      ext i j
      fin_cases i <;> fin_cases j <;>
        simp [lowerTriPart, CholeskyL, hch]
    rw [computeOrthoCholesky_eq, hlow, Prod.mk.injEq]
    constructor
    · ext i j
      fin_cases i
      fin_cases j
      simp [Matrix.mul_apply]
    · rfl


/-! ## Claim C5: the fixed 20-component multipole layout -/

theorem exists_list20 {α : Type} (l : List α) (h : l.length = 20) :
    ∃ a0 a1 a2 a3 a4 a5 a6 a7 a8 a9 a10 a11 a12 a13 a14 a15 a16 a17 a18 a19 : α,
      l = [a0, a1, a2, a3, a4, a5, a6, a7, a8, a9, a10, a11, a12, a13, a14,
        a15, a16, a17, a18, a19] := by
  rcases l with _ | ⟨a0, l⟩
  · simp at h
  rcases l with _ | ⟨a1, l⟩
  · simp at h
  rcases l with _ | ⟨a2, l⟩
  · simp at h
  rcases l with _ | ⟨a3, l⟩
  · simp at h
  rcases l with _ | ⟨a4, l⟩
  · simp at h
  rcases l with _ | ⟨a5, l⟩
  · simp at h
  rcases l with _ | ⟨a6, l⟩
  · simp at h
  rcases l with _ | ⟨a7, l⟩
  · simp at h
  rcases l with _ | ⟨a8, l⟩
  · simp at h
  rcases l with _ | ⟨a9, l⟩
  · simp at h
  rcases l with _ | ⟨a10, l⟩
  · simp at h
  rcases l with _ | ⟨a11, l⟩
  · simp at h
  rcases l with _ | ⟨a12, l⟩
  · simp at h
  rcases l with _ | ⟨a13, l⟩
  · simp at h
  rcases l with _ | ⟨a14, l⟩
  · simp at h
  rcases l with _ | ⟨a15, l⟩
  · simp at h
  rcases l with _ | ⟨a16, l⟩
  · simp at h
  rcases l with _ | ⟨a17, l⟩
  · simp at h
  rcases l with _ | ⟨a18, l⟩
  · simp at h
  rcases l with _ | ⟨a19, l⟩
  · simp at h
  rcases l with _ | ⟨x, l⟩
  · exact ⟨a0, a1, a2, a3, a4, a5, a6, a7, a8, a9, a10, a11, a12, a13, a14, a15, a16, a17, a18, a19, rfl⟩
  · simp at h

/-- C5: for the combined overlap+multipole operator the `OneEDriver`
collection has exactly 20 matrices, in the fixed order overlap, 3 dipoles,
6 quadrupoles, 10 octupoles, and `computeAOOneE` extracts them by that
positional convention: element 0 is the overlap, elements 1–3 the dipoles,
4–9 the quadrupoles, 10–19 the octupoles. -/
theorem C5_multipole_layout (sizes : List ℕ)
    (engine : Fin (numResults LibintOp.emultipole3) → ℕ → ℕ → Option (ℕ → ℕ → ℝ))
    (mats : List (ℕ → ℕ → ℝ))
    (hm : mats.length = numResults LibintOp.emultipole3) :
    (OneEDriverColl LibintOp.emultipole3 sizes engine).length = 20 ∧
    numResults LibintOp.emultipole3 = 20 ∧
    emultipole3Order.length = 20 ∧
    emultipole3Order.getD 0 MultipoleComponent.overlap =
      MultipoleComponent.overlap ∧
    (∀ q : Fin 3, emultipole3Order.getD (1 + (q : ℕ))
      MultipoleComponent.overlap = MultipoleComponent.dipole q) ∧
    (∀ q : Fin 6, emultipole3Order.getD (4 + (q : ℕ))
      MultipoleComponent.overlap = MultipoleComponent.quadrupole q) ∧
    (∀ q : Fin 10, emultipole3Order.getD (10 + (q : ℕ))
      MultipoleComponent.overlap = MultipoleComponent.octupole q) ∧
    (extractMultipole mats).1 = mats.getD 0 (fun _ _ => 0) ∧
    (extractMultipole mats).2.1 =
      [mats.getD 1 (fun _ _ => 0), mats.getD 2 (fun _ _ => 0),
       mats.getD 3 (fun _ _ => 0)] ∧
    (extractMultipole mats).2.2.1 =
      [mats.getD 4 (fun _ _ => 0), mats.getD 5 (fun _ _ => 0),
       mats.getD 6 (fun _ _ => 0), mats.getD 7 (fun _ _ => 0),
       mats.getD 8 (fun _ _ => 0), mats.getD 9 (fun _ _ => 0)] ∧
    (extractMultipole mats).2.2.2 =
      [mats.getD 10 (fun _ _ => 0), mats.getD 11 (fun _ _ => 0),
       mats.getD 12 (fun _ _ => 0), mats.getD 13 (fun _ _ => 0),
       mats.getD 14 (fun _ _ => 0), mats.getD 15 (fun _ _ => 0),
       mats.getD 16 (fun _ _ => 0), mats.getD 17 (fun _ _ => 0),
       mats.getD 18 (fun _ _ => 0), mats.getD 19 (fun _ _ => 0)] := by
  obtain ⟨a0, a1, a2, a3, a4, a5, a6, a7, a8, a9, a10, a11, a12, a13, a14,
    a15, a16, a17, a18, a19, rfl⟩ := exists_list20 mats hm
  refine ⟨?_, rfl, rfl, rfl, ?_, ?_, ?_, rfl, rfl, rfl, rfl⟩
  · simp [OneEDriverColl, numResults]
  · intro q
    fin_cases q <;> rfl
  · intro q
    fin_cases q <;> rfl
  · intro q
    fin_cases q <;> rfl

/-- Witness for C5: the collection from an empty basis with an all-screening
engine, which has length 20 by construction. -/
theorem C5_witness :
    (OneEDriverColl LibintOp.emultipole3 [] (fun _ _ _ => none)).length =
      numResults LibintOp.emultipole3 ∧
    (OneEDriverColl LibintOp.emultipole3 [] (fun _ _ _ => none)).length = 20 := by
  have h := C5_multipole_layout [] (fun _ _ _ => none)
    (OneEDriverColl LibintOp.emultipole3 [] (fun _ _ _ => none))
    (by simp [OneEDriverColl])
  exact ⟨by simp [OneEDriverColl], h.1⟩


/-! ## Claim C7: screened shell pairs leave zero blocks -/

theorem shellOff_succ (sizes : List ℕ) (p : ℕ) (hp : p < sizes.length) :
    shellOff sizes (p + 1) = shellOff sizes p + sizes.getD p 0 := by
  unfold shellOff
  rw [← List.take_concat_get' sizes p hp, List.sum_append,
    List.getD_eq_getElem sizes 0 hp]
  simp

theorem shellOff_mono (sizes : List ℕ) {a b : ℕ} (hab : a ≤ b) :
    shellOff sizes a ≤ shellOff sizes b := by
  unfold shellOff
  have hb : b = a + (b - a) := by omega
  rw [hb, List.take_add, List.sum_append]
  exact Nat.le_add_right _ _

theorem shell_disjoint (sizes : List ℕ) {p q i : ℕ} (hp : p < sizes.length)
    (hq : q < sizes.length) (hip : inShell sizes p i)
    (hiq : inShell sizes q i) : p = q := by
  unfold inShell at hip hiq
  by_contra hne
  rcases Nat.lt_or_ge p q with hlt | hge
  · have h1 : shellOff sizes p + sizes.getD p 0 ≤ shellOff sizes q := by
      rw [← shellOff_succ sizes p hp]
      exact shellOff_mono sizes hlt
    omega
  · have hlt : q < p := by omega
    have h1 : shellOff sizes q + sizes.getD q 0 ≤ shellOff sizes p := by
      rw [← shellOff_succ sizes q hq]
      exact shellOff_mono sizes hlt
    omega

theorem mem_pairList {ns : ℕ} {p : ℕ × ℕ} (h : p ∈ pairList ns) :
    p.1 < ns ∧ p.2 ≤ p.1 := by
  simp only [pairList, List.mem_flatMap, List.mem_map, List.mem_range] at h
  obtain ⟨s1, hs1, s2, hs2, hps⟩ := h
  rw [← hps]
  exact ⟨hs1, by omega⟩

theorem assemble_entry_zero (sizes : List ℕ)
    (engine : ℕ → ℕ → Option (ℕ → ℕ → ℝ)) (i j : ℕ) :
    ∀ (l : List (ℕ × ℕ)) (acc : ℕ → ℕ → ℝ),
      (∀ p ∈ l, ∀ blk, engine p.1 p.2 = some blk →
        ¬(inShell sizes p.1 i ∧ inShell sizes p.2 j)) →
      acc i j = 0 → (l.foldl (writePair sizes engine) acc) i j = 0 := by
  intro l
  induction l with
  | nil =>
    intro acc _ h0
    exact h0
  | cons a l IH =>
    intro acc hl h0
    simp only [List.foldl_cons]
    refine IH _ (fun p hp => hl p (List.mem_cons_of_mem a hp)) ?_
    unfold writePair
    rcases heng : engine a.1 a.2 with _ | blk
    · exact h0
    · dsimp only
      rw [if_neg (hl a (List.mem_cons_self a l) blk heng)]
      exact h0

/-- C7: if the engine screens a shell pair `(s1, s2)` (`s2 ≤ s1`), nothing
is written for that pair, so in the returned (symmetrized) matrix the block
at that pair's row/column offsets and its mirrored upper-triangle image are
exactly zero, coming from the zero-initialization of the buffers. -/
theorem C7_screened_zero (sizes : List ℕ)
    (engine : ℕ → ℕ → Option (ℕ → ℕ → ℝ)) (s1 s2 : ℕ) (hs : s2 ≤ s1)
    (hlen : s1 < sizes.length) (hscr : engine s1 s2 = none) (i j : ℕ)
    (hi : inShell sizes s1 i) (hj : inShell sizes s2 j) :
    OneEDriverMat sizes engine i j = 0 ∧ OneEDriverMat sizes engine j i = 0 := by
  have hlen2 : s2 < sizes.length := lt_of_le_of_lt hs hlen
  have hzero : assemble sizes engine i j = 0 := by
    refine assemble_entry_zero sizes engine i j _ _ ?_ rfl
    intro p hp blk heng hcov
    obtain ⟨hp1, hp2⟩ := mem_pairList hp
    have hq1 : p.1 = s1 := shell_disjoint sizes hp1 hlen hcov.1 hi
    have hq2 : p.2 = s2 :=
      shell_disjoint sizes (lt_of_le_of_lt hp2 hp1) hlen2 hcov.2 hj
    rw [hq1, hq2, hscr] at heng
    cases heng
  have hzero' : assemble sizes engine j i = 0 := by
    refine assemble_entry_zero sizes engine j i _ _ ?_ rfl
    intro p hp blk heng hcov
    obtain ⟨hp1, hp2⟩ := mem_pairList hp
    have hq1 : p.1 = s2 := shell_disjoint sizes hp1 hlen2 hcov.1 hj
    have hq2 : p.2 = s1 :=
      shell_disjoint sizes (lt_of_le_of_lt hp2 hp1) hlen hcov.2 hi
    have heq : s1 = s2 := by omega
    subst heq
    rw [hq1, hq2, hscr] at heng
    cases heng
  unfold OneEDriverMat symmetrizeLower
  constructor
  · by_cases h : j ≤ i
    · rw [if_pos h]
      exact hzero
    · rw [if_neg h]
      exact hzero'
  · by_cases h : i ≤ j
    · rw [if_pos h]
      exact hzero'
    · rw [if_neg h]
      exact hzero

/-- Witness for C7: a two-shell basis of unit shells whose off-diagonal pair
is screened. -/
theorem C7_witness :
    ((0 : ℕ) ≤ 1 ∧ 1 < [1, 1].length ∧
      (fun _ _ => (none : Option (ℕ → ℕ → ℝ))) 1 0 = none ∧
      inShell [1, 1] 1 1 ∧ inShell [1, 1] 0 0) ∧
    (OneEDriverMat [1, 1] (fun _ _ => none) 1 0 = 0 ∧
      OneEDriverMat [1, 1] (fun _ _ => none) 0 1 = 0) := by
  have h1 : inShell [1, 1] 1 1 := by
    unfold inShell shellOff
    norm_num
  have h0 : inShell [1, 1] 0 0 := by
    unfold inShell shellOff
    norm_num
  exact ⟨⟨by norm_num, by norm_num, rfl, h1, h0⟩,
    C7_screened_zero [1, 1] (fun _ _ => none) 1 0 (by norm_num) (by norm_num)
      rfl 1 0 h1 h0⟩


end ChronusQ
